import Mathlib

/-!
Verification development for the graph-coloring repository (src/src/main.py).

The program reads an undirected graph from a space-delimited edge-list file,
tries each of seven greedy coloring strategies of the graph library's
greedy coloring routine, keeps the strategy with the fewest colors, recolors
the graph with that strategy, and writes the coloring to a space-delimited
file.

Shallow embedding conventions:
* vertices are `Int` (Python `int`);
* a graph is its edge list `List (Int × Int)` in insertion order,
  with set semantics enforced by `addEdge`; nodes are derived in insertion
  order by `nodesOf`, as the graph library does;
* a coloring is an association list `List (Int × Nat)`, latest binding
  first (`lookupC` finds the first entry, matching dict update semantics);
* Python exceptions are modelled by `Option`/`none`;
* the coloring engine itself lives in the external graph library, not in
  this repository's source; it is modelled from the spec (section 4.1),
  with `random_sequential`'s random permutation passed explicitly.
-/

namespace GraphColoring

abbrev V := Int

/-! ## Graph representation -/

/-- Insert a node at the end if not already present (dict-insertion order,
as the graph library keeps its node dictionary). -/
def insertNode (ns : List V) (v : V) : List V :=
  if v ∈ ns then ns else ns ++ [v]

/-- Nodes of an edge list, in first-appearance order (the library's node
insertion order: each added edge adds its endpoints if missing). -/
def nodesOf (es : List (V × V)) : List V :=
  es.foldl (fun ns e => insertNode (insertNode ns e.1) e.2) []

/-- Adjacency in an undirected edge list: either orientation present. -/
def adjB (es : List (V × V)) (u v : V) : Bool :=
  es.any (fun e => (e.1 == u && e.2 == v) || (e.1 == v && e.2 == u))

/-- Degree of `v` counted against the node list `ns` (for the full graph
pass `nodesOf es`; for induced subgraphs pass the remaining nodes). -/
def degree (es : List (V × V)) (ns : List V) (v : V) : Nat :=
  (ns.filter (fun u => adjB es v u)).length

/-- Well-formed graph: no self-loops (the spec's data-model invariant:
"the system assumes the input has none"). -/
def WF (es : List (V × V)) : Prop := ∀ e ∈ es, e.1 ≠ e.2

instance (es : List (V × V)) : Decidable (WF es) := by
  unfold WF; infer_instance

/-- Two edge pairs describe the same undirected edge. -/
def SameEdge (e f : V × V) : Prop :=
  (e.1 = f.1 ∧ e.2 = f.2) ∨ (e.1 = f.2 ∧ e.2 = f.1)

instance : DecidablePred (fun p : (V × V) × (V × V) => SameEdge p.1 p.2) :=
  fun _ => by unfold SameEdge; infer_instance

instance (e f : V × V) : Decidable (SameEdge e f) := by
  unfold SameEdge; infer_instance

/-- `add_edge` of the graph library: a no-op when the undirected edge is
already present, otherwise appended (set semantics, insertion order kept). -/
def addEdge (es : List (V × V)) (u v : V) : List (V × V) :=
  if adjB es u v then es else es ++ [(u, v)]

/-- Build a graph from a list of edge pairs by repeated `addEdge`
(the loader's accumulation loop). -/
def buildGraph (ps : List (V × V)) : List (V × V) :=
  ps.foldl (fun es e => addEdge es e.1 e.2) []

/-! ## Coloring representation -/

/-- First-match lookup in the association list; entries are prepended, so
this returns the most recent binding (dict lookup). -/
def lookupC (acc : List (V × Nat)) (v : V) : Option Nat :=
  match acc with
  | [] => none
  | p :: rest => if p.1 = v then some p.2 else lookupC rest v

/-- Keep only the effective (first, i.e. most recent) binding of each key:
the underlying Python dict. -/
def dedupKeys : List (V × Nat) → List (V × Nat)
  | [] => []
  | p :: rest => p :: (dedupKeys rest).filter (fun q => q.1 ≠ p.1)

/-- Keys of an association list. -/
def keysC (acc : List (V × Nat)) : List V := acc.map (fun p => p.1)

/-- Colors already used by neighbors of `v` (over all recorded bindings). -/
def neighborColors (es : List (V × V)) (acc : List (V × Nat)) (v : V) : List Nat :=
  (acc.filter (fun p => adjB es v p.1)).map (fun p => p.2)

/-- Smallest non-negative integer not in `used`, by linear scan with enough
fuel (`used.length` candidate bumps always suffice). -/
def mexAux (used : List Nat) : Nat → Nat → Nat
  | 0, c => c
  | fuel + 1, c => if c ∈ used then mexAux used fuel (c + 1) else c

/-- Smallest non-negative integer not in `used` (the greedy color choice). -/
def mex (used : List Nat) : Nat := mexAux used used.length 0

/-- Color one vertex with the smallest color unused by its colored
neighbors, prepending the new binding. -/
def greedyStep (es : List (V × V)) (acc : List (V × Nat)) (v : V) : List (V × Nat) :=
  (v, mex (neighborColors es acc v)) :: acc

/-- Modelled from the spec: the library's greedy coloring for an
ordering-based strategy — visit vertices in `order`, assigning each the
smallest non-negative color not already used by any colored neighbor. -/
def greedyOfOrder (es : List (V × V)) (order : List V) : List (V × Nat) :=
  order.foldl (greedyStep es) []

/-! ## Strategy orderings (modelled from the spec, section 4.1) -/

/-- Stable descending insertion by degree: `v` is placed before the first
vertex of strictly smaller degree, hence after earlier equal-degree ones. -/
def insertByDeg (es : List (V × V)) (ns : List V) (v : V) : List V → List V
  | [] => [v]
  | u :: rest =>
    if degree es ns u < degree es ns v then v :: u :: rest
    else u :: insertByDeg es ns v rest

/-- Modelled from the spec: `largest_first` ordering — nodes sorted by
descending degree, stably (ties keep node-insertion order). -/
def largestFirstOrder (es : List (V × V)) : List V :=
  (nodesOf es).foldl (fun acc v => insertByDeg es (nodesOf es) v acc) []

/-- First vertex of minimal degree (within `remaining`) in list order. -/
def pickMinDeg (es : List (V × V)) (remaining : List V) : Option V :=
  match remaining with
  | [] => none
  | v :: rest =>
    some (rest.foldl
      (fun best u =>
        if degree es remaining u < degree es remaining best then u else best) v)

/-- Iteratively remove a minimum-degree vertex from the working copy,
prepending removed vertices (spec's `smallest_last` rule). -/
def smallestLastAux (es : List (V × V)) : Nat → List V → List V → List V
  | 0, _, acc => acc
  | fuel + 1, remaining, acc =>
    match pickMinDeg es remaining with
    | none => acc
    | some v => smallestLastAux es fuel (remaining.erase v) (v :: acc)

/-- Modelled from the spec: `smallest_last` ordering. -/
def smallestLastOrder (es : List (V × V)) : List V :=
  smallestLastAux es (nodesOf es).length (nodesOf es) []

/-- Neighbors of `v` in node order. -/
def neighborsOf (es : List (V × V)) (v : V) : List V :=
  (nodesOf es).filter (fun u => adjB es v u)

/-- One traversal: pop the frontier head; unvisited heads are appended to
the visit order and their unvisited neighbors queued (at the back for BFS,
at the front for DFS). -/
def traverseAux (es : List (V × V)) (isBfs : Bool) :
    Nat → List V → List V → List V
  | 0, _, visited => visited
  | _ + 1, [], visited => visited
  | fuel + 1, v :: front, visited =>
    if v ∈ visited then traverseAux es isBfs fuel front visited
    else
      let ns := (neighborsOf es v).filter (fun u => !decide (u ∈ visited))
      traverseAux es isBfs fuel (if isBfs then front ++ ns else ns ++ front)
        (visited ++ [v])

/-- Modelled from the spec: `connected_sequential_bfs` / `_dfs` ordering —
traversal order per connected component, components started from each not
yet visited node in node order. -/
def csOrder (es : List (V × V)) (isBfs : Bool) : List V :=
  (nodesOf es).foldl
    (fun visited s => traverseAux es isBfs (2 * es.length + 1) [s] visited) []

/-- Saturation degree: number of distinct colors among colored neighbors. -/
def satDeg (es : List (V × V)) (acc : List (V × Nat)) (v : V) : Nat :=
  (neighborColors es acc v).dedup.length

/-- First uncolored vertex maximizing (saturation, then degree); later
vertices replace the running best only on strict improvement. -/
def pickDsatur (es : List (V × V)) (acc : List (V × Nat)) :
    List V → Option V
  | [] => none
  | v :: rest =>
    some (rest.foldl
      (fun best u =>
        if satDeg es acc u > satDeg es acc best ∨
            (satDeg es acc u = satDeg es acc best ∧
              degree es (nodesOf es) u > degree es (nodesOf es) best)
        then u else best) v)

/-- DSATUR loop: repeatedly pick by saturation and color greedily. -/
def dsaturAux (es : List (V × V)) : Nat → List V → List (V × Nat) → List (V × Nat)
  | 0, _, acc => acc
  | fuel + 1, uncolored, acc =>
    match pickDsatur es acc uncolored with
    | none => acc
    | some v => dsaturAux es fuel (uncolored.erase v) (greedyStep es acc v)

/-- Modelled from the spec: `saturation_largest_first` (DSATUR). -/
def dsatur (es : List (V × V)) : List (V × Nat) :=
  dsaturAux es (nodesOf es).length (nodesOf es) []

/-- Greedily extract a maximal independent set from `cands` in list order;
`chosen` are the members already taken. -/
def extractMISFrom (es : List (V × V)) : List V → List V → List V
  | _, [] => []
  | chosen, v :: rest =>
    if chosen.any (fun u => adjB es v u) then extractMISFrom es chosen rest
    else v :: extractMISFrom es (v :: chosen) rest

/-- A maximal independent set of the remaining vertices. -/
def extractMIS (es : List (V × V)) (cands : List V) : List V :=
  extractMISFrom es [] cands

/-- Independent-set rounds: color each extracted maximal independent set
with the next color directly. -/
def indepAux (es : List (V × V)) :
    Nat → List V → Nat → List (V × Nat) → List (V × Nat)
  | 0, _, _, acc => acc
  | fuel + 1, remaining, col, acc =>
    match extractMIS es remaining with
    | [] => acc
    | v :: s =>
      indepAux es fuel
        (remaining.filter (fun w => !decide (w ∈ v :: s)))
        (col + 1) ((v :: s).map (fun u => (u, col)) ++ acc)

/-- Modelled from the spec: `independent_set` strategy. -/
def indepColoring (es : List (V × V)) : List (V × Nat) :=
  indepAux es (nodesOf es).length (nodesOf es) 0 []

/-! ## The multi-strategy engine (find_best_strategy, main) -/

/-- The fixed strategy enumeration order of `find_best_strategy`. -/
def strategies : List String :=
  ["largest_first", "random_sequential", "smallest_last", "independent_set",
   "connected_sequential_bfs", "connected_sequential_dfs",
   "saturation_largest_first"]

/-- Modelled from the spec: `color(graph, strategy)` — dispatch to the
strategy's coloring; `perm` is the permutation drawn by
`random_sequential` (passed explicitly, spec section 9 open question). -/
def colorWith (es : List (V × V)) (s : String) (perm : List V) : List (V × Nat) :=
  if s = "largest_first" then greedyOfOrder es (largestFirstOrder es)
  else if s = "random_sequential" then greedyOfOrder es perm
  else if s = "smallest_last" then greedyOfOrder es (smallestLastOrder es)
  else if s = "independent_set" then indepColoring es
  else if s = "connected_sequential_bfs" then greedyOfOrder es (csOrder es true)
  else if s = "connected_sequential_dfs" then greedyOfOrder es (csOrder es false)
  else if s = "saturation_largest_first" then dsatur es
  else []

/-- `max(coloring.values()) + 1` over the dict's values; `none` models the
`ValueError` Python's `max` raises on an empty dict. -/
def numColors (c : List (V × Nat)) : Option Nat :=
  let vs := (dedupKeys c).map (fun p => p.2)
  if vs.isEmpty then none else some (vs.foldr max 0 + 1)

/-- Color count with the error case defaulted (used only where the count
is known to be defined). -/
def numColorsN (c : List (V × Nat)) : Nat := (numColors c).getD 0

/-- The selection loop of `find_best_strategy` after the first iteration:
the running best is overwritten only on a strictly smaller color count;
a `none` count (empty coloring) aborts, as the uncaught `ValueError` does. -/
def bestLoop (es : List (V × V)) (perm : List V) :
    List String → String → Nat → Option (String × Nat)
  | [], bs, bn => some (bs, bn)
  | s :: ss, bs, bn =>
    match numColors (colorWith es s perm) with
    | none => none
    | some n =>
      if n < bn then bestLoop es perm ss s n else bestLoop es perm ss bs bn

/-- `find_best_strategy`: try every strategy in enumeration order, keep the
first strictly-improving one; the first iteration (`i == 0`) always sets
the running best. -/
def findBestStrategy (es : List (V × V)) (perm : List V) : Option String :=
  match numColors (colorWith es "largest_first" perm) with
  | none => none
  | some n =>
    (bestLoop es perm (strategies.drop 1) "largest_first" n).map (fun p => p.1)

/-- The pipeline of `main`: pick the best strategy (drawing `pSel` for
`random_sequential`), then recolor with it (drawing `pFin`). -/
def pipelineColoring (es : List (V × V)) (pSel pFin : List V) :
    Option (List (V × Nat)) :=
  (findBestStrategy es pSel).map (fun s => colorWith es s pFin)

/-! ## Loader and writer (read_graph_from_csv, write_coloring_to_csv) -/

/-- Value of a non-empty all-digit character list. -/
def digitsVal (l : List Char) : Option Nat :=
  match l with
  | [] => none
  | _ =>
    l.foldl
      (fun acc c =>
        match acc with
        | none => none
        | some n => if c.isDigit then some (n * 10 + (c.toNat - 48)) else none)
      (some 0)

/-- Modelled from the spec: Python's `int()` on one field — a decimal
integer with optional sign; anything else raises `ValueError` (`none`). -/
def parseInt (s : String) : Option Int :=
  match s.data with
  | [] => none
  | '-' :: rest => (digitsVal rest).map (fun n => -(n : Int))
  | '+' :: rest => (digitsVal rest).map (fun n => (n : Int))
  | l => (digitsVal l).map (fun n => (n : Int))

/-- One data row: `vertex1, vertex2 = map(int, row)` — exactly two fields,
each an integer, else the `ValueError` is modelled as `none`. -/
def parseRow (row : List String) : Option (V × V) :=
  match row with
  | [a, b] =>
    match parseInt a, parseInt b with
    | some x, some y => some (x, y)
    | _, _ => none
  | _ => none

/-- One iteration of the loader's row loop: a previous failure or a parse
failure propagates; otherwise the row's undirected edge is added. -/
def readFoldStep (acc : Option (List (V × V))) (row : List String) :
    Option (List (V × V)) :=
  match acc with
  | none => none
  | some es =>
    match parseRow row with
    | none => none
    | some e => some (addEdge es e.1 e.2)

/-- `read_graph_from_csv`: `next(reader)` skips the first line (raising on
an empty file, modelled as `none`), then each row is parsed and added as an
undirected edge; a parse failure propagates fatally. -/
def readGraph (file : List (List String)) : Option (List (V × V)) :=
  match file with
  | [] => none
  | _ :: rows => rows.foldl readFoldStep (some [])

/-- Keep the first occurrence of every undirected edge. -/
def dedupEdges : List (V × V) → List (V × V)
  | [] => []
  | e :: rest => e :: (dedupEdges rest).filter (fun f => ¬ SameEdge e f)

/-- A mapping has no two bindings of the same key (a Python dict). -/
def KeysNodup (c : List (V × Nat)) : Prop := (keysC c).Nodup

instance (c : List (V × Nat)) : Decidable (KeysNodup c) := by
  unfold KeysNodup; infer_instance

/-! ## Concrete instances used in witnesses and counterexamples -/

/-- A bipartite graph (a 6-vertex crown with two pendant vertices) on which
the `largest_first` greedy order needs 3 colors while a good permutation
needs only 2. -/
def cexG : List (V × V) := [(1, 7), (2, 4), (5, 1), (3, 4), (2, 6), (1, 6),
  (3, 5), (4, 8)]

/-- A permutation of `cexG`'s nodes that 2-colors it greedily. -/
def cexPSel : List V := [1, 2, 3, 8, 4, 5, 6, 7]

/-- A permutation of `cexG`'s nodes that 3-colors it greedily. -/
def cexPFin : List V := [1, 4, 2, 5, 3, 6, 7, 8]

/-- The triangle (spec section 8 scenario). -/
def tri : List (V × V) := [(1, 2), (2, 3), (3, 1)]

/-- Two disjoint edges (spec section 8 scenario). -/
def twoDisj : List (V × V) := [(1, 2), (3, 4)]

/-- A coloring is proper: no edge has both endpoints mapped to the same
color. -/
def ProperOn (es : List (V × V)) (acc : List (V × Nat)) : Prop :=
  ∀ e ∈ es, ∀ cu cv, lookupC acc e.1 = some cu → lookupC acc e.2 = some cv →
    cu ≠ cv

/-- The recorded color values are downward closed: below any used color,
every color is also used. -/
def ValuesDC (acc : List (V × Nat)) : Prop :=
  ∀ p ∈ acc, ∀ m < p.2, ∃ q ∈ acc, q.2 = m

/-- `write_coloring_to_csv`: header row `vertex color`, then one row per
vertex in ascending key order, each `vertex color`. -/
def writeRows (c : List (V × Nat)) : List (List String) :=
  ["vertex", "color"] ::
    ((keysC c).insertionSort (fun a b => a ≤ b)).map
      (fun v => [toString v, toString ((lookupC c v).getD 0)])

/-! ## Basic lemmas: adjacency, nodes, lookup, mex -/

theorem adjB_iff (es : List (V × V)) (u v : V) :
    adjB es u v = true ↔ (u, v) ∈ es ∨ (v, u) ∈ es := by
  unfold adjB
  rw [List.any_eq_true]
  constructor
  · rintro ⟨e, he, hp⟩
    simp only [Bool.or_eq_true, Bool.and_eq_true, beq_iff_eq] at hp
    rcases hp with ⟨h1, h2⟩ | ⟨h1, h2⟩
    · left
      have : e = (u, v) := by
        cases e; simp only at h1 h2; rw [h1, h2]
      rwa [this] at he
    · right
      have : e = (v, u) := by
        cases e; simp only at h1 h2; rw [h1, h2]
      rwa [this] at he
  · rintro (h | h)
    · exact ⟨(u, v), h, by simp⟩
    · exact ⟨(v, u), h, by simp⟩

theorem adjB_comm (es : List (V × V)) (u v : V) :
    adjB es u v = adjB es v u := by
  rw [Bool.eq_iff_iff, adjB_iff, adjB_iff]
  exact Or.comm

theorem adjB_of_mem {es : List (V × V)} {e : V × V} (he : e ∈ es) :
    adjB es e.1 e.2 = true :=
  (adjB_iff es e.1 e.2).mpr (Or.inl he)

theorem mem_insertNode {ns : List V} {v a : V} :
    a ∈ insertNode ns v ↔ a ∈ ns ∨ a = v := by
  unfold insertNode
  split
  · constructor
    · exact Or.inl
    · rintro (h | rfl)
      · exact h
      · assumption
  · simp [List.mem_append]

theorem insertNode_nodup {ns : List V} (h : ns.Nodup) (v : V) :
    (insertNode ns v).Nodup := by
  unfold insertNode
  split
  · exact h
  · next hv =>
    rw [List.nodup_append]
    refine ⟨h, List.nodup_singleton v, ?_⟩
    intro a ha hb
    rw [List.mem_singleton] at hb
    rw [hb] at ha
    exact hv ha

theorem nodesOf_nodup (es : List (V × V)) : (nodesOf es).Nodup := by
  unfold nodesOf
  suffices h : ∀ (l : List (V × V)) (ns : List V), ns.Nodup →
      (l.foldl (fun ns e => insertNode (insertNode ns e.1) e.2) ns).Nodup by
    exact h es [] List.nodup_nil
  intro l
  induction l with
  | nil => intro ns h; exact h
  | cons e l ih =>
    intro ns h
    exact ih _ (insertNode_nodup (insertNode_nodup h e.1) e.2)

theorem lookupC_cons (p : V × Nat) (acc : List (V × Nat)) (v : V) :
    lookupC (p :: acc) v = if p.1 = v then some p.2 else lookupC acc v := rfl

theorem lookupC_mem {acc : List (V × Nat)} {v : V} {c : Nat}
    (h : lookupC acc v = some c) : (v, c) ∈ acc := by
  induction acc with
  | nil => simp [lookupC] at h
  | cons p rest ih =>
    obtain ⟨a, b⟩ := p
    rw [lookupC_cons] at h
    simp only at h
    split at h
    · next ha =>
      cases h
      rw [← ha]
      exact List.mem_cons_self _ _
    · exact List.mem_cons_of_mem _ (ih h)

theorem lookupC_isSome_iff {acc : List (V × Nat)} {v : V} :
    (lookupC acc v).isSome = true ↔ v ∈ keysC acc := by
  induction acc with
  | nil => simp [lookupC, keysC]
  | cons p rest ih =>
    rw [lookupC_cons]
    unfold keysC at *
    simp only [List.map_cons, List.mem_cons]
    split
    · next hp => simp [hp]
    · next hp =>
      rw [ih]
      constructor
      · exact Or.inr
      · rintro (h | h)
        · exact absurd h.symm hp
        · exact h

theorem lookupC_append_of_isSome {b acc : List (V × Nat)} {v : V} {c : Nat}
    (h : lookupC b v = some c) : lookupC (b ++ acc) v = some c := by
  induction b with
  | nil => simp [lookupC] at h
  | cons p rest ih =>
    rw [List.cons_append, lookupC_cons] at *
    split at h
    · rw [if_pos ‹_›]; exact h
    · rw [if_neg ‹¬ _›]; exact ih h

theorem lookupC_append_of_none {b acc : List (V × Nat)} {v : V}
    (h : lookupC b v = none) : lookupC (b ++ acc) v = lookupC acc v := by
  induction b with
  | nil => rfl
  | cons p rest ih =>
    rw [lookupC_cons] at h
    rw [List.cons_append, lookupC_cons]
    split at h
    · cases h
    · rw [if_neg ‹¬ _›]; exact ih h

theorem lookupC_isSome_append {b acc : List (V × Nat)} {v : V}
    (h : (lookupC acc v).isSome = true) :
    (lookupC (b ++ acc) v).isSome = true := by
  cases hb : lookupC b v with
  | none => rw [lookupC_append_of_none hb]; exact h
  | some c => rw [lookupC_append_of_isSome hb]; rfl

theorem length_filter_ge_mono (l : List Nat) (c : Nat) :
    (l.filter (fun x => decide (c + 1 ≤ x))).length ≤
      (l.filter (fun x => decide (c ≤ x))).length := by
  apply List.Sublist.length_le
  apply List.monotone_filter_right
  intro x hx
  simp only [decide_eq_true_eq] at *
  omega

theorem length_filter_ge_succ_lt {used : List Nat} {c : Nat} (hc : c ∈ used) :
    (used.filter (fun x => decide (c + 1 ≤ x))).length <
      (used.filter (fun x => decide (c ≤ x))).length := by
  induction used with
  | nil => cases hc
  | cons a l ihl =>
    simp only [List.filter_cons]
    rcases List.mem_cons.mp hc with hca | hal
    · rw [decide_eq_false (by omega : ¬ (c + 1 ≤ a)),
        decide_eq_true (by omega : c ≤ a)]
      simp only [List.length_cons, if_neg, if_pos]
      have := length_filter_ge_mono l c
      simp only [Bool.false_eq_true, if_false]
      omega
    · have := ihl hal
      have := length_filter_ge_mono l c
      by_cases h1 : c + 1 ≤ a
      · rw [decide_eq_true h1, decide_eq_true (by omega : c ≤ a)]
        simp only [List.length_cons, if_pos]
        omega
      · rw [decide_eq_false h1]
        simp only [Bool.false_eq_true, if_false]
        by_cases h2 : c ≤ a
        · rw [decide_eq_true h2]
          simp only [List.length_cons, if_pos]
          omega
        · rw [decide_eq_false h2]
          simp only [Bool.false_eq_true, if_false]
          omega

theorem mexAux_not_mem (used : List Nat) :
    ∀ (fuel c : Nat), (used.filter (fun x => decide (c ≤ x))).length ≤ fuel →
      mexAux used fuel c ∉ used := by
  intro fuel
  induction fuel with
  | zero =>
    intro c h hmem
    have h1 : c ∈ used.filter (fun x => decide (c ≤ x)) :=
      List.mem_filter.mpr ⟨hmem, by simp⟩
    have h2 : 0 < (used.filter (fun x => decide (c ≤ x))).length :=
      List.length_pos.mpr (List.ne_nil_of_mem h1)
    omega
  | succ fuel ih =>
    intro c h
    unfold mexAux
    split
    · apply ih
      have hlt := length_filter_ge_succ_lt ‹c ∈ used›
      omega
    · assumption

theorem mex_not_mem (used : List Nat) : mex used ∉ used :=
  mexAux_not_mem used used.length 0 (List.length_filter_le _ _)

theorem mexAux_min (used : List Nat) :
    ∀ (fuel c m : Nat), c ≤ m → m < mexAux used fuel c → m ∈ used := by
  intro fuel
  induction fuel with
  | zero =>
    intro c m hcm h
    unfold mexAux at h
    omega
  | succ fuel ih =>
    intro c m hcm h
    unfold mexAux at h
    split at h
    · rcases Nat.eq_or_lt_of_le hcm with rfl | hlt
      · assumption
      · exact ih (c + 1) m hlt h
    · omega

theorem mex_min {used : List Nat} {m : Nat} (h : m < mex used) : m ∈ used :=
  mexAux_min used used.length 0 m (Nat.zero_le m) h

/-! ## Greedy coloring machinery -/

theorem mem_neighborColors_of {es : List (V × V)} {acc : List (V × Nat)}
    {v u : V} {cu : Nat} (hmem : (u, cu) ∈ acc) (hadj : adjB es v u = true) :
    cu ∈ neighborColors es acc v := by
  unfold neighborColors
  exact List.mem_map.mpr ⟨(u, cu), List.mem_filter.mpr ⟨hmem, hadj⟩, rfl⟩

theorem neighborColors_sub {es : List (V × V)} {acc : List (V × Nat)}
    {v : V} {m : Nat} (h : m ∈ neighborColors es acc v) :
    ∃ q ∈ acc, q.2 = m := by
  unfold neighborColors at h
  obtain ⟨p, hp, hpm⟩ := List.mem_map.mp h
  exact ⟨p, (List.mem_filter.mp hp).1, hpm⟩

theorem properOn_nil (es : List (V × V)) : ProperOn es [] := by
  intro e _ cu cv hu
  cases hu

theorem properOn_greedyStep {es : List (V × V)} {acc : List (V × Nat)}
    (hwf : WF es) (h : ProperOn es acc) (v : V) :
    ProperOn es (greedyStep es acc v) := by
  intro e he cu cv hu hv
  unfold greedyStep at hu hv
  rw [lookupC_cons] at hu hv
  simp only at hu hv
  by_cases h1 : v = e.1 <;> by_cases h2 : v = e.2
  · exact absurd (h1.symm.trans h2) (hwf e he)
  · rw [if_pos h1] at hu
    rw [if_neg h2] at hv
    cases hu
    have hmem : (e.2, cv) ∈ acc := lookupC_mem hv
    have hadj : adjB es v e.2 = true := by
      rw [h1]; exact adjB_of_mem he
    intro hcontra
    have hcv : cv ∈ neighborColors es acc v := mem_neighborColors_of hmem hadj
    rw [← hcontra] at hcv
    exact mex_not_mem _ hcv
  · rw [if_neg h1] at hu
    rw [if_pos h2] at hv
    cases hv
    have hmem : (e.1, cu) ∈ acc := lookupC_mem hu
    have hadj : adjB es v e.1 = true := by
      rw [h2, adjB_comm]; exact adjB_of_mem he
    intro hcontra
    have hcu : cu ∈ neighborColors es acc v := mem_neighborColors_of hmem hadj
    rw [hcontra] at hcu
    exact mex_not_mem _ hcu
  · rw [if_neg h1] at hu
    rw [if_neg h2] at hv
    exact h e he cu cv hu hv

theorem properOn_foldl {es : List (V × V)} (hwf : WF es) :
    ∀ (order : List V) (acc : List (V × Nat)), ProperOn es acc →
      ProperOn es (order.foldl (greedyStep es) acc) := by
  intro order
  induction order with
  | nil => intro acc h; exact h
  | cons v rest ih =>
    intro acc h
    exact ih _ (properOn_greedyStep hwf h v)

theorem properOn_greedyOfOrder {es : List (V × V)} (hwf : WF es)
    (order : List V) : ProperOn es (greedyOfOrder es order) :=
  properOn_foldl hwf order [] (properOn_nil es)

theorem valuesDC_nil : ValuesDC [] := by
  intro p hp
  cases hp

theorem valuesDC_greedyStep {es : List (V × V)} {acc : List (V × Nat)}
    (h : ValuesDC acc) (v : V) : ValuesDC (greedyStep es acc v) := by
  intro p hp m hm
  unfold greedyStep at *
  rcases List.mem_cons.mp hp with rfl | hmem
  · simp only at hm
    have := mex_min hm
    obtain ⟨q, hq, hqm⟩ := neighborColors_sub this
    exact ⟨q, List.mem_cons_of_mem _ hq, hqm⟩
  · obtain ⟨q, hq, hqm⟩ := h p hmem m hm
    exact ⟨q, List.mem_cons_of_mem _ hq, hqm⟩

theorem valuesDC_foldl (es : List (V × V)) :
    ∀ (order : List V) (acc : List (V × Nat)), ValuesDC acc →
      ValuesDC (order.foldl (greedyStep es) acc) := by
  intro order
  induction order with
  | nil => intro acc h; exact h
  | cons v rest ih =>
    intro acc h
    exact ih _ (valuesDC_greedyStep h v)

theorem valuesDC_greedyOfOrder (es : List (V × V)) (order : List V) :
    ValuesDC (greedyOfOrder es order) :=
  valuesDC_foldl es order [] valuesDC_nil

theorem keysC_foldl_greedy (es : List (V × V)) :
    ∀ (order : List V) (acc : List (V × Nat)),
      keysC (order.foldl (greedyStep es) acc) = order.reverse ++ keysC acc := by
  intro order
  induction order with
  | nil => intro acc; simp
  | cons v rest ih =>
    intro acc
    rw [List.foldl_cons, ih, List.reverse_cons, List.append_assoc]
    rfl

theorem keysC_greedyOfOrder (es : List (V × V)) (order : List V) :
    keysC (greedyOfOrder es order) = order.reverse := by
  unfold greedyOfOrder
  rw [keysC_foldl_greedy]
  simp [keysC]

theorem greedyOfOrder_covers {es : List (V × V)} {order : List V} {v : V}
    (h : v ∈ order) : (lookupC (greedyOfOrder es order) v).isSome = true := by
  rw [lookupC_isSome_iff, keysC_greedyOfOrder, List.mem_reverse]
  exact h

/-! ## Strategy orderings: permutation and coverage -/

theorem nodup_concat {l : List V} {v : V} (h : l.Nodup) (hv : v ∉ l) :
    (l ++ [v]).Nodup := by
  rw [List.nodup_append]
  refine ⟨h, List.nodup_singleton v, ?_⟩
  intro a ha hb
  rw [List.mem_singleton] at hb
  rw [hb] at ha
  exact hv ha

theorem insertByDeg_perm (es : List (V × V)) (ns : List V) (v : V) :
    ∀ l, (insertByDeg es ns v l).Perm (v :: l) := by
  intro l
  induction l with
  | nil => exact List.Perm.refl _
  | cons u rest ih =>
    unfold insertByDeg
    split
    · exact List.Perm.refl _
    · exact (List.Perm.cons u ih).trans (List.Perm.swap v u rest)

theorem foldl_insertByDeg_perm (es : List (V × V)) (ns : List V) :
    ∀ (l acc : List V),
      (l.foldl (fun acc v => insertByDeg es ns v acc) acc).Perm (l ++ acc) := by
  intro l
  induction l with
  | nil => intro acc; exact List.Perm.refl _
  | cons v rest ih =>
    intro acc
    rw [List.foldl_cons]
    have h2 : (rest ++ insertByDeg es ns v acc).Perm (rest ++ (v :: acc)) :=
      List.Perm.append_left rest (insertByDeg_perm es ns v acc)
    exact (ih _).trans (h2.trans List.perm_middle)

theorem largestFirstOrder_perm (es : List (V × V)) :
    (largestFirstOrder es).Perm (nodesOf es) := by
  unfold largestFirstOrder
  have h := foldl_insertByDeg_perm es (nodesOf es) (nodesOf es) []
  simpa using h

theorem foldl_choice_mem (choose : V → V → V)
    (h : ∀ b u, choose b u = b ∨ choose b u = u) :
    ∀ (l : List V) (b : V), l.foldl choose b ∈ b :: l := by
  intro l
  induction l with
  | nil => intro b; exact List.mem_cons_self _ _
  | cons u rest ih =>
    intro b
    rw [List.foldl_cons]
    rcases h b u with hc | hc <;> rw [hc]
    · rcases List.mem_cons.mp (ih b) with h1 | h1
      · rw [h1]; exact List.mem_cons_self _ _
      · exact List.mem_cons_of_mem _ (List.mem_cons_of_mem _ h1)
    · rcases List.mem_cons.mp (ih u) with h1 | h1
      · rw [h1]; exact List.mem_cons_of_mem _ (List.mem_cons_self _ _)
      · exact List.mem_cons_of_mem _ (List.mem_cons_of_mem _ h1)

theorem pickMinDeg_mem {es : List (V × V)} {rem : List V} {v : V}
    (h : pickMinDeg es rem = some v) : v ∈ rem := by
  cases rem with
  | nil => simp [pickMinDeg] at h
  | cons v0 rest =>
    simp only [pickMinDeg, Option.some_inj] at h
    rw [← h]
    apply foldl_choice_mem
    intro b u
    dsimp only
    split
    · exact Or.inr rfl
    · exact Or.inl rfl

theorem pickMinDeg_none {es : List (V × V)} {rem : List V}
    (h : pickMinDeg es rem = none) : rem = [] := by
  cases rem with
  | nil => rfl
  | cons v0 rest => simp [pickMinDeg] at h

theorem smallestLastAux_perm (es : List (V × V)) :
    ∀ (fuel : Nat) (rem acc : List V), rem.length ≤ fuel →
      (smallestLastAux es fuel rem acc).Perm (rem ++ acc) := by
  intro fuel
  induction fuel with
  | zero =>
    intro rem acc h
    have hnil : rem = [] := List.length_eq_zero.mp (Nat.le_zero.mp h)
    subst hnil
    exact List.Perm.refl _
  | succ fuel ih =>
    intro rem acc h
    unfold smallestLastAux
    cases hp : pickMinDeg es rem with
    | none =>
      have hnil := pickMinDeg_none hp
      subst hnil
      exact List.Perm.refl _
    | some v =>
      have hv : v ∈ rem := pickMinDeg_mem hp
      have hlen : (rem.erase v).length ≤ fuel := by
        rw [List.length_erase_of_mem hv]
        have := List.length_pos.mpr (List.ne_nil_of_mem hv)
        omega
      have hrec := ih (rem.erase v) (v :: acc) hlen
      have h1 : (rem.erase v ++ v :: acc).Perm (v :: (rem.erase v ++ acc)) :=
        List.perm_middle
      have h2 : ((v :: rem.erase v) ++ acc).Perm (rem ++ acc) :=
        List.Perm.append_right acc (List.perm_cons_erase hv).symm
      exact hrec.trans (h1.trans h2)

theorem smallestLastOrder_perm (es : List (V × V)) :
    (smallestLastOrder es).Perm (nodesOf es) := by
  unfold smallestLastOrder
  have h := smallestLastAux_perm es (nodesOf es).length (nodesOf es) []
    (le_refl _)
  simpa using h

theorem traverseAux_mono (es : List (V × V)) (b : Bool) :
    ∀ (fuel : Nat) (front visited : List V) (x : V), x ∈ visited →
      x ∈ traverseAux es b fuel front visited := by
  intro fuel
  induction fuel with
  | zero => intro front visited x hx; exact hx
  | succ fuel ih =>
    intro front visited x hx
    cases front with
    | nil => exact hx
    | cons v front =>
      simp only [traverseAux]
      split
      · exact ih front visited x hx
      · exact ih _ _ x (List.mem_append_left _ hx)

theorem traverseAux_nodup (es : List (V × V)) (b : Bool) :
    ∀ (fuel : Nat) (front visited : List V), visited.Nodup →
      (traverseAux es b fuel front visited).Nodup := by
  intro fuel
  induction fuel with
  | zero => intro front visited h; exact h
  | succ fuel ih =>
    intro front visited h
    cases front with
    | nil => exact h
    | cons v front =>
      simp only [traverseAux]
      split
      · exact ih front visited h
      · next hv => exact ih _ _ (nodup_concat h hv)

theorem traverseAux_start_mem (es : List (V × V)) (b : Bool) :
    ∀ (fuel : Nat) (front visited : List V) (v : V), 0 < fuel →
      v ∈ traverseAux es b fuel (v :: front) visited := by
  intro fuel
  cases fuel with
  | zero => intro front visited v h; omega
  | succ fuel =>
    intro front visited v _
    simp only [traverseAux]
    split
    · exact traverseAux_mono es b fuel front visited v ‹v ∈ visited›
    · apply traverseAux_mono
      exact List.mem_append_right _ (List.mem_singleton.mpr rfl)

theorem csOrder_fold_mem (es : List (V × V)) (b : Bool) :
    ∀ (l visited : List V) (x : V), x ∈ visited ∨ x ∈ l →
      x ∈ l.foldl
        (fun visited s => traverseAux es b (2 * es.length + 1) [s] visited)
        visited := by
  intro l
  induction l with
  | nil =>
    intro visited x hx
    rcases hx with hx | hx
    · exact hx
    · cases hx
  | cons s rest ih =>
    intro visited x hx
    rw [List.foldl_cons]
    rcases hx with hx | hx
    · exact ih _ x (Or.inl (traverseAux_mono es b _ _ _ x hx))
    · rcases List.mem_cons.mp hx with rfl | hx
      · exact ih _ x (Or.inl (traverseAux_start_mem es b _ [] visited x
          (Nat.succ_pos _)))
      · exact ih _ x (Or.inr hx)

theorem csOrder_complete {es : List (V × V)} {b : Bool} {v : V}
    (h : v ∈ nodesOf es) : v ∈ csOrder es b :=
  csOrder_fold_mem es b (nodesOf es) [] v (Or.inr h)

theorem csOrder_nodup (es : List (V × V)) (b : Bool) :
    (csOrder es b).Nodup := by
  unfold csOrder
  suffices h : ∀ (l visited : List V), visited.Nodup →
      (l.foldl
        (fun visited s => traverseAux es b (2 * es.length + 1) [s] visited)
        visited).Nodup by
    exact h (nodesOf es) [] List.nodup_nil
  intro l
  induction l with
  | nil => intro visited h; exact h
  | cons s rest ih =>
    intro visited h
    exact ih _ (traverseAux_nodup es b _ _ _ h)

/-! ## DSATUR -/

theorem pickDsatur_mem {es : List (V × V)} {acc : List (V × Nat)}
    {unc : List V} {v : V} (h : pickDsatur es acc unc = some v) : v ∈ unc := by
  cases unc with
  | nil => simp [pickDsatur] at h
  | cons v0 rest =>
    simp only [pickDsatur, Option.some_inj] at h
    rw [← h]
    apply foldl_choice_mem
    intro b u
    dsimp only
    split
    · exact Or.inr rfl
    · exact Or.inl rfl

theorem pickDsatur_none {es : List (V × V)} {acc : List (V × Nat)}
    {unc : List V} (h : pickDsatur es acc unc = none) : unc = [] := by
  cases unc with
  | nil => rfl
  | cons v0 rest => simp [pickDsatur] at h

theorem keysC_cons (p : V × Nat) (acc : List (V × Nat)) :
    keysC (p :: acc) = p.1 :: keysC acc := rfl

theorem lookupC_isSome_cons {acc : List (V × Nat)} {p : V × Nat} {w : V}
    (h : (lookupC acc w).isSome = true) :
    (lookupC (p :: acc) w).isSome = true := by
  rw [lookupC_cons]
  split
  · rfl
  · exact h

theorem keysC_greedyStep (es : List (V × V)) (acc : List (V × Nat)) (v : V) :
    keysC (greedyStep es acc v) = v :: keysC acc := rfl

theorem lookupC_greedyStep_self (es : List (V × V)) (acc : List (V × Nat))
    (v : V) :
    lookupC (greedyStep es acc v) v = some (mex (neighborColors es acc v)) := by
  unfold greedyStep
  rw [lookupC_cons]
  simp

theorem dsaturAux_props {es : List (V × V)} (hwf : WF es) :
    ∀ (fuel : Nat) (unc : List V) (acc : List (V × Nat)),
      unc.length ≤ fuel → unc.Nodup → (∀ v ∈ unc, v ∉ keysC acc) →
      (keysC acc).Nodup → ProperOn es acc → ValuesDC acc →
      (∀ v ∈ unc, (lookupC (dsaturAux es fuel unc acc) v).isSome = true) ∧
      (∀ v : V, (lookupC acc v).isSome = true →
        (lookupC (dsaturAux es fuel unc acc) v).isSome = true) ∧
      (keysC (dsaturAux es fuel unc acc)).Nodup ∧
      ProperOn es (dsaturAux es fuel unc acc) ∧
      ValuesDC (dsaturAux es fuel unc acc) := by
  intro fuel
  induction fuel with
  | zero =>
    intro unc acc hlen hnd hdisj hknd hprop hdc
    have hnil : unc = [] := List.length_eq_zero.mp (Nat.le_zero.mp hlen)
    subst hnil
    simp only [dsaturAux]
    exact ⟨fun v hv => absurd hv (List.not_mem_nil v), fun v h => h, hknd,
      hprop, hdc⟩
  | succ fuel ih =>
    intro unc acc hlen hnd hdisj hknd hprop hdc
    cases hp : pickDsatur es acc unc with
    | none =>
      have hnil := pickDsatur_none hp
      subst hnil
      simp only [dsaturAux, hp]
      exact ⟨fun v hv => absurd hv (List.not_mem_nil v), fun v h => h, hknd,
        hprop, hdc⟩
    | some v =>
      have hv : v ∈ unc := pickDsatur_mem hp
      have hlen2 : (unc.erase v).length ≤ fuel := by
        rw [List.length_erase_of_mem hv]
        have := List.length_pos.mpr (List.ne_nil_of_mem hv)
        omega
      have hdisj2 : ∀ w ∈ unc.erase v, w ∉ keysC (greedyStep es acc v) := by
        intro w hw
        have hw2 := (hnd.mem_erase_iff).mp hw
        rw [keysC_greedyStep]
        intro hmem
        rcases List.mem_cons.mp hmem with h1 | h1
        · exact hw2.1 h1
        · exact hdisj w hw2.2 h1
      have hknd2 : (keysC (greedyStep es acc v)).Nodup := by
        rw [keysC_greedyStep]
        exact List.nodup_cons.mpr ⟨hdisj v hv, hknd⟩
      obtain ⟨ih1, ih2, ih3, ih4, ih5⟩ := ih (unc.erase v) (greedyStep es acc v)
        hlen2 (hnd.erase v) hdisj2 hknd2 (properOn_greedyStep hwf hprop v)
        (valuesDC_greedyStep hdc v)
      simp only [dsaturAux, hp]
      refine ⟨?_, ?_, ih3, ih4, ih5⟩
      · intro w hw
        by_cases hwv : w = v
        · subst hwv
          apply ih2
          rw [lookupC_greedyStep_self]
          rfl
        · exact ih1 w ((hnd.mem_erase_iff).mpr ⟨hwv, hw⟩)
      · intro w hws
        exact ih2 w (lookupC_isSome_cons hws)

/-! ## Independent-set strategy -/

theorem extractMISFrom_sublist (es : List (V × V)) :
    ∀ (cands chosen : List V), (extractMISFrom es chosen cands).Sublist cands := by
  intro cands
  induction cands with
  | nil => intro chosen; exact List.Sublist.refl _
  | cons v rest ih =>
    intro chosen
    unfold extractMISFrom
    split
    · exact List.Sublist.cons v (ih chosen)
    · exact List.Sublist.cons₂ v (ih (v :: chosen))

theorem extractMISFrom_indep (es : List (V × V)) :
    ∀ (cands chosen : List V),
      ((extractMISFrom es chosen cands).Pairwise
        (fun a b => adjB es a b = false)) ∧
      (∀ w ∈ extractMISFrom es chosen cands, ∀ u ∈ chosen,
        adjB es w u = false) := by
  intro cands
  induction cands with
  | nil =>
    intro chosen
    exact ⟨List.Pairwise.nil, fun w hw => absurd hw (List.not_mem_nil w)⟩
  | cons v rest ih =>
    intro chosen
    unfold extractMISFrom
    split
    · exact ih chosen
    · next hany =>
      have hnoadj : ∀ u ∈ chosen, adjB es v u = false := by
        intro u hu
        by_cases h3 : adjB es v u = true
        · exact absurd (List.any_eq_true.mpr ⟨u, hu, h3⟩) hany
        · exact Bool.eq_false_iff.mpr h3
      obtain ⟨ihp, ihc⟩ := ih (v :: chosen)
      constructor
      · refine List.Pairwise.cons ?_ ihp
        intro w hw
        have := ihc w hw v (List.mem_cons_self _ _)
        rw [adjB_comm]
        exact this
      · intro w hw u hu
        rcases List.mem_cons.mp hw with rfl | hw2
        · exact hnoadj u hu
        · exact ihc w hw2 u (List.mem_cons_of_mem _ hu)

theorem extractMIS_cons (es : List (V × V)) (v : V) (rest : List V) :
    extractMIS es (v :: rest) = v :: extractMISFrom es [v] rest := rfl

theorem extractMIS_eq_nil {es : List (V × V)} {cands : List V}
    (h : extractMIS es cands = []) : cands = [] := by
  cases cands with
  | nil => rfl
  | cons v rest => rw [extractMIS_cons] at h; cases h

theorem lookupC_constBlock_mem {s : List V} {x : V} {col : Nat} (hx : x ∈ s) :
    lookupC (s.map (fun u => (u, col))) x = some col := by
  induction s with
  | nil => cases hx
  | cons v rest ih =>
    rw [List.map_cons]
    show (if v = x then some col else lookupC (rest.map (fun u => (u, col))) x)
      = some col
    by_cases hvx : v = x
    · rw [if_pos hvx]
    · rw [if_neg hvx]
      rcases List.mem_cons.mp hx with h2 | h2
      · exact absurd h2.symm hvx
      · exact ih h2

theorem lookupC_constBlock_not_mem {s : List V} {x : V} {col : Nat}
    (hx : x ∉ s) : lookupC (s.map (fun u => (u, col))) x = none := by
  induction s with
  | nil => rfl
  | cons v rest ih =>
    rw [List.map_cons]
    show (if v = x then some col else lookupC (rest.map (fun u => (u, col))) x)
      = none
    rw [if_neg (fun hvx => hx (by rw [← hvx]; exact List.mem_cons_self v rest))]
    exact ih (fun h2 => hx (List.mem_cons_of_mem _ h2))

theorem keysC_constBlock (s : List V) (col : Nat) :
    keysC (s.map (fun u => (u, col))) = s := by
  induction s with
  | nil => rfl
  | cons v rest ih =>
    rw [List.map_cons]
    show v :: keysC (rest.map (fun u => (u, col))) = v :: rest
    rw [ih]

theorem keysC_append (a b : List (V × Nat)) :
    keysC (a ++ b) = keysC a ++ keysC b := by
  unfold keysC
  rw [List.map_append]

theorem length_filter_lt {l : List V} {p : V → Bool} {x : V}
    (hx : x ∈ l) (hpx : p x = false) : (l.filter p).length < l.length := by
  have hs : (l.filter p).Sublist l := List.filter_sublist l
  have hle := hs.length_le
  rcases Nat.lt_or_ge (l.filter p).length l.length with h | h
  · exact h
  · exfalso
    have heq : l.filter p = l := hs.eq_of_length (by omega)
    have : x ∈ l.filter p := heq.symm ▸ hx
    have := (List.mem_filter.mp this).2
    rw [hpx] at this
    cases this

theorem indepAux_props {es : List (V × V)} (hwf : WF es) :
    ∀ (fuel : Nat) (remaining : List V) (col : Nat) (acc : List (V × Nat)),
      remaining.length ≤ fuel → remaining.Nodup →
      (∀ v ∈ remaining, v ∉ keysC acc) → (keysC acc).Nodup →
      ProperOn es acc → (∀ p ∈ acc, p.2 < col) →
      (∀ m < col, ∃ p ∈ acc, p.2 = m) →
      (∀ v ∈ remaining,
        (lookupC (indepAux es fuel remaining col acc) v).isSome = true) ∧
      (∀ v : V, (lookupC acc v).isSome = true →
        (lookupC (indepAux es fuel remaining col acc) v).isSome = true) ∧
      (keysC (indepAux es fuel remaining col acc)).Nodup ∧
      ProperOn es (indepAux es fuel remaining col acc) ∧
      (∃ colEnd, col ≤ colEnd ∧
        (∀ p ∈ indepAux es fuel remaining col acc, p.2 < colEnd) ∧
        (∀ m < colEnd, ∃ p ∈ indepAux es fuel remaining col acc, p.2 = m)) := by
  intro fuel
  induction fuel with
  | zero =>
    intro remaining col acc hlen hnd hdisj hknd hprop hlt hfull
    have hnil : remaining = [] := List.length_eq_zero.mp (Nat.le_zero.mp hlen)
    subst hnil
    simp only [indepAux]
    exact ⟨fun v hv => absurd hv (List.not_mem_nil v), fun v h => h, hknd,
      hprop, col, le_refl _, hlt, hfull⟩
  | succ fuel ih =>
    intro remaining col acc hlen hnd hdisj hknd hprop hlt hfull
    cases hm : extractMIS es remaining with
    | nil =>
      have hnil := extractMIS_eq_nil hm
      subst hnil
      simp only [indepAux]
      exact ⟨fun v hv => absurd hv (List.not_mem_nil v), fun v h => h, hknd,
        hprop, col, le_refl _, hlt, hfull⟩
    | cons v s =>
      have hsub : (v :: s).Sublist remaining := hm ▸ extractMISFrom_sublist es remaining []
      have hSsub : ∀ x ∈ v :: s, x ∈ remaining := fun x hx => hsub.subset hx
      have hSnd : (v :: s).Nodup := hsub.nodup hnd
      have hSindep : (v :: s).Pairwise (fun a b => adjB es a b = false) :=
        hm ▸ (extractMISFrom_indep es remaining []).1
      set block := (v :: s).map (fun u => (u, col)) with hblock
      set acc2 := block ++ acc with hacc2
      set rem2 := remaining.filter (fun w => !decide (w ∈ v :: s)) with hrem2
      have hlookS : ∀ x ∈ v :: s, lookupC acc2 x = some col := by
        intro x hx
        exact lookupC_append_of_isSome (lookupC_constBlock_mem hx)
      have hlookN : ∀ x, x ∉ v :: s → lookupC acc2 x = lookupC acc x := by
        intro x hx
        exact lookupC_append_of_none (lookupC_constBlock_not_mem hx)
      have hmem_rem2 : ∀ w, w ∈ rem2 ↔ (w ∈ remaining ∧ w ∉ v :: s) := by
        intro w
        rw [hrem2, List.mem_filter]
        simp
      have hlen2 : rem2.length ≤ fuel := by
        have : rem2.length < remaining.length := by
          apply length_filter_lt (hSsub v (List.mem_cons_self _ _))
          simp
        omega
      have hnd2 : rem2.Nodup := hnd.filter _
      have hkeys2 : keysC acc2 = (v :: s) ++ keysC acc := by
        rw [hacc2, keysC_append, hblock, keysC_constBlock]
      have hdisj2 : ∀ w ∈ rem2, w ∉ keysC acc2 := by
        intro w hw
        obtain ⟨hw1, hw2⟩ := (hmem_rem2 w).mp hw
        rw [hkeys2]
        intro hmem
        rcases List.mem_append.mp hmem with h1 | h1
        · exact hw2 h1
        · exact hdisj w hw1 h1
      have hknd2 : (keysC acc2).Nodup := by
        rw [hkeys2, List.nodup_append]
        exact ⟨hSnd, hknd, fun x hx hx2 => hdisj x (hSsub x hx) hx2⟩
      have hprop2 : ProperOn es acc2 := by
        intro e he cu cv hu hv2
        by_cases h1 : e.1 ∈ v :: s <;> by_cases h2 : e.2 ∈ v :: s
        · exfalso
          have hne : e.1 ≠ e.2 := hwf e he
          have hsymm : Symmetric (fun a b => adjB es a b = false) := by
            intro a b hab
            rw [adjB_comm]
            exact hab
          have := hSindep.forall hsymm h1 h2 hne
          rw [adjB_of_mem he] at this
          cases this
        · rw [hlookS e.1 h1] at hu
          rw [hlookN e.2 h2] at hv2
          cases hu
          have := hlt (e.2, cv) (lookupC_mem hv2)
          simp only at this
          omega
        · rw [hlookN e.1 h1] at hu
          rw [hlookS e.2 h2] at hv2
          cases hv2
          have := hlt (e.1, cu) (lookupC_mem hu)
          simp only at this
          omega
        · rw [hlookN e.1 h1] at hu
          rw [hlookN e.2 h2] at hv2
          exact hprop e he cu cv hu hv2
      have hlt2 : ∀ p ∈ acc2, p.2 < col + 1 := by
        intro p hp
        rcases List.mem_append.mp hp with h1 | h1
        · obtain ⟨u, _, rfl⟩ := List.mem_map.mp h1
          omega
        · have := hlt p h1
          omega
      have hfull2 : ∀ m < col + 1, ∃ p ∈ acc2, p.2 = m := by
        intro m hmlt
        rcases Nat.lt_or_ge m col with h1 | h1
        · obtain ⟨p, hp, hpm⟩ := hfull m h1
          exact ⟨p, List.mem_append_right _ hp, hpm⟩
        · have hmcol : m = col := by omega
          subst hmcol
          exact ⟨(v, m), List.mem_append_left _
            (List.mem_map.mpr ⟨v, List.mem_cons_self _ _, rfl⟩), rfl⟩
      obtain ⟨ih1, ih2, ih3, ih4, ih5⟩ := ih rem2 (col + 1) acc2 hlen2 hnd2
        hdisj2 hknd2 hprop2 hlt2 hfull2
      have hstep : indepAux es (fuel + 1) remaining col acc =
          indepAux es fuel rem2 (col + 1) acc2 := by
        simp only [indepAux, hm]
      rw [hstep]
      refine ⟨?_, ?_, ih3, ih4, ?_⟩
      · intro w hw
        by_cases hwS : w ∈ v :: s
        · apply ih2
          rw [hlookS w hwS]
          rfl
        · exact ih1 w ((hmem_rem2 w).mpr ⟨hw, hwS⟩)
      · intro w hws
        exact ih2 w (lookupC_isSome_append hws)
      · obtain ⟨colEnd, hce1, hce2, hce3⟩ := ih5
        exact ⟨colEnd, by omega, hce2, hce3⟩

theorem indepColoring_props {es : List (V × V)} (hwf : WF es) :
    (∀ v ∈ nodesOf es, (lookupC (indepColoring es) v).isSome = true) ∧
    (keysC (indepColoring es)).Nodup ∧ ProperOn es (indepColoring es) ∧
    ValuesDC (indepColoring es) := by
  obtain ⟨h1, _, h3, h4, h5⟩ := indepAux_props hwf (nodesOf es).length
    (nodesOf es) 0 [] (le_refl _) (nodesOf_nodup es)
    (fun v _ hmem => absurd hmem (List.not_mem_nil v)) List.nodup_nil
    (properOn_nil es) (fun p hp => absurd hp (List.not_mem_nil p))
    (fun m hm => absurd hm (Nat.not_lt_zero m))
  refine ⟨h1, h3, h4, ?_⟩
  obtain ⟨colEnd, _, hce2, hce3⟩ := h5
  intro p hp m hm
  exact hce3 m (by have := hce2 p hp; omega)

theorem dsatur_props {es : List (V × V)} (hwf : WF es) :
    (∀ v ∈ nodesOf es, (lookupC (dsatur es) v).isSome = true) ∧
    (keysC (dsatur es)).Nodup ∧ ProperOn es (dsatur es) ∧
    ValuesDC (dsatur es) := by
  have h := dsaturAux_props hwf (nodesOf es).length (nodesOf es) []
    (le_refl _) (nodesOf_nodup es) (fun v _ hmem => absurd hmem
      (List.not_mem_nil v)) List.nodup_nil (properOn_nil es) valuesDC_nil
  exact ⟨h.1, h.2.2.1, h.2.2.2.1, h.2.2.2.2⟩

/-! ## Dict values and color counts -/

theorem dedupKeys_eq_self {c : List (V × Nat)} (h : KeysNodup c) :
    dedupKeys c = c := by
  induction c with
  | nil => rfl
  | cons p rest ih =>
    unfold KeysNodup keysC at h
    rw [List.map_cons, List.nodup_cons] at h
    unfold dedupKeys
    rw [ih h.2]
    congr 1
    rw [List.filter_eq_self]
    intro q hq
    simp only [ne_eq, decide_eq_true_eq]
    intro hqp
    exact h.1 (hqp ▸ List.mem_map.mpr ⟨q, hq, rfl⟩)

theorem dedupKeys_ne_nil {c : List (V × Nat)} (h : c ≠ []) :
    dedupKeys c ≠ [] := by
  cases c with
  | nil => exact absurd rfl h
  | cons p rest => simp [dedupKeys]

theorem numColors_eq_some_numColorsN {c : List (V × Nat)} (h : c ≠ []) :
    numColors c = some (numColorsN c) := by
  have hvs : ((dedupKeys c).map (fun p => p.2)).isEmpty = false := by
    rw [List.isEmpty_eq_false_iff_exists_mem]
    obtain ⟨p, hp⟩ := List.exists_mem_of_ne_nil (dedupKeys c) (dedupKeys_ne_nil h)
    exact ⟨p.2, List.mem_map.mpr ⟨p, hp, rfl⟩⟩
  simp only [numColorsN, numColors, hvs, Bool.false_eq_true, if_false,
    Option.getD_some]

theorem foldr_max_mem (l : List Nat) (h : l ≠ []) : l.foldr max 0 ∈ l := by
  induction l with
  | nil => exact absurd rfl h
  | cons a rest ih =>
    cases rest with
    | nil =>
      show max a 0 ∈ [a]
      rw [Nat.max_zero]
      exact List.mem_singleton.mpr rfl
    | cons b rest2 =>
      rw [List.foldr_cons]
      rcases le_total ((b :: rest2).foldr max 0) a with h1 | h1
      · rw [Nat.max_eq_left h1]
        exact List.mem_cons_self _ _
      · rw [Nat.max_eq_right h1]
        exact List.mem_cons_of_mem _ (ih (by simp))

theorem le_foldr_max {l : List Nat} {x : Nat} (h : x ∈ l) :
    x ≤ l.foldr max 0 := by
  induction l with
  | nil => cases h
  | cons a rest ih =>
    rw [List.foldr_cons]
    rcases List.mem_cons.mp h with rfl | h2
    · exact Nat.le_max_left _ _
    · exact (ih h2).trans (Nat.le_max_right _ _)

theorem contiguous_of_dc {vs : List Nat} (hne : vs ≠ [])
    (hdc : ∀ x ∈ vs, ∀ m < x, m ∈ vs) :
    (∀ m, m ∈ vs ↔ m < vs.foldr max 0 + 1) ∧
      vs.dedup.length = vs.foldr max 0 + 1 := by
  have hmax := foldr_max_mem vs hne
  have hiff : ∀ m, m ∈ vs ↔ m < vs.foldr max 0 + 1 := by
    intro m
    constructor
    · intro hm
      have := le_foldr_max hm
      omega
    · intro hm
      rcases Nat.lt_or_ge m (vs.foldr max 0) with h1 | h1
      · exact hdc _ hmax m h1
      · have hme : m = vs.foldr max 0 := by omega
        rw [hme]
        exact hmax
  refine ⟨hiff, ?_⟩
  have hperm : vs.dedup.Perm (List.range (vs.foldr max 0 + 1)) := by
    rw [List.perm_ext_iff_of_nodup (List.nodup_dedup vs) (List.nodup_range _)]
    intro a
    rw [List.mem_dedup, List.mem_range]
    exact hiff a
  rw [hperm.length_eq, List.length_range]

/-! ## colorWith: dispatch and per-strategy facts -/

theorem colorWith_lf (es : List (V × V)) (p : List V) :
    colorWith es "largest_first" p = greedyOfOrder es (largestFirstOrder es) :=
  rfl

theorem colorWith_rs (es : List (V × V)) (p : List V) :
    colorWith es "random_sequential" p = greedyOfOrder es p := rfl

theorem colorWith_sl (es : List (V × V)) (p : List V) :
    colorWith es "smallest_last" p = greedyOfOrder es (smallestLastOrder es) :=
  rfl

theorem colorWith_is (es : List (V × V)) (p : List V) :
    colorWith es "independent_set" p = indepColoring es := rfl

theorem colorWith_bfs (es : List (V × V)) (p : List V) :
    colorWith es "connected_sequential_bfs" p =
      greedyOfOrder es (csOrder es true) := rfl

theorem colorWith_dfs (es : List (V × V)) (p : List V) :
    colorWith es "connected_sequential_dfs" p =
      greedyOfOrder es (csOrder es false) := rfl

theorem colorWith_slf (es : List (V × V)) (p : List V) :
    colorWith es "saturation_largest_first" p = dsatur es := rfl

theorem strategy_cases {s : String} (hs : s ∈ strategies) :
    s = "largest_first" ∨ s = "random_sequential" ∨ s = "smallest_last" ∨
    s = "independent_set" ∨ s = "connected_sequential_bfs" ∨
    s = "connected_sequential_dfs" ∨ s = "saturation_largest_first" := by
  simpa [strategies] using hs

theorem colorWith_covers {es : List (V × V)} {p : List V} (hwf : WF es)
    (hp : p.Perm (nodesOf es)) :
    ∀ s ∈ strategies, ∀ v ∈ nodesOf es,
      (lookupC (colorWith es s p) v).isSome = true := by
  intro s hs v hv
  rcases strategy_cases hs with rfl | rfl | rfl | rfl | rfl | rfl | rfl
  · rw [colorWith_lf]
    exact greedyOfOrder_covers ((largestFirstOrder_perm es).mem_iff.mpr hv)
  · rw [colorWith_rs]
    exact greedyOfOrder_covers (hp.mem_iff.mpr hv)
  · rw [colorWith_sl]
    exact greedyOfOrder_covers ((smallestLastOrder_perm es).mem_iff.mpr hv)
  · rw [colorWith_is]
    exact (indepColoring_props hwf).1 v hv
  · rw [colorWith_bfs]
    exact greedyOfOrder_covers (csOrder_complete hv)
  · rw [colorWith_dfs]
    exact greedyOfOrder_covers (csOrder_complete hv)
  · rw [colorWith_slf]
    exact (dsatur_props hwf).1 v hv

theorem colorWith_proper {es : List (V × V)} {p : List V} (hwf : WF es) :
    ∀ s ∈ strategies, ProperOn es (colorWith es s p) := by
  intro s hs
  rcases strategy_cases hs with rfl | rfl | rfl | rfl | rfl | rfl | rfl
  · rw [colorWith_lf]; exact properOn_greedyOfOrder hwf _
  · rw [colorWith_rs]; exact properOn_greedyOfOrder hwf _
  · rw [colorWith_sl]; exact properOn_greedyOfOrder hwf _
  · rw [colorWith_is]; exact (indepColoring_props hwf).2.2.1
  · rw [colorWith_bfs]; exact properOn_greedyOfOrder hwf _
  · rw [colorWith_dfs]; exact properOn_greedyOfOrder hwf _
  · rw [colorWith_slf]; exact (dsatur_props hwf).2.2.1

theorem colorWith_keysNodup {es : List (V × V)} {p : List V} (hwf : WF es)
    (hp : p.Perm (nodesOf es)) :
    ∀ s ∈ strategies, KeysNodup (colorWith es s p) := by
  intro s hs
  unfold KeysNodup
  rcases strategy_cases hs with rfl | rfl | rfl | rfl | rfl | rfl | rfl
  · rw [colorWith_lf, keysC_greedyOfOrder, List.nodup_reverse]
    exact (largestFirstOrder_perm es).symm.nodup (nodesOf_nodup es)
  · rw [colorWith_rs, keysC_greedyOfOrder, List.nodup_reverse]
    exact hp.symm.nodup (nodesOf_nodup es)
  · rw [colorWith_sl, keysC_greedyOfOrder, List.nodup_reverse]
    exact (smallestLastOrder_perm es).symm.nodup (nodesOf_nodup es)
  · rw [colorWith_is]; exact (indepColoring_props hwf).2.1
  · rw [colorWith_bfs, keysC_greedyOfOrder, List.nodup_reverse]
    exact csOrder_nodup es true
  · rw [colorWith_dfs, keysC_greedyOfOrder, List.nodup_reverse]
    exact csOrder_nodup es false
  · rw [colorWith_slf]; exact (dsatur_props hwf).2.1

theorem colorWith_dc {es : List (V × V)} {p : List V} (hwf : WF es) :
    ∀ s ∈ strategies, ValuesDC (colorWith es s p) := by
  intro s hs
  rcases strategy_cases hs with rfl | rfl | rfl | rfl | rfl | rfl | rfl
  · rw [colorWith_lf]; exact valuesDC_greedyOfOrder es _
  · rw [colorWith_rs]; exact valuesDC_greedyOfOrder es _
  · rw [colorWith_sl]; exact valuesDC_greedyOfOrder es _
  · rw [colorWith_is]; exact (indepColoring_props hwf).2.2.2
  · rw [colorWith_bfs]; exact valuesDC_greedyOfOrder es _
  · rw [colorWith_dfs]; exact valuesDC_greedyOfOrder es _
  · rw [colorWith_slf]; exact (dsatur_props hwf).2.2.2

theorem colorWith_ne_nil {es : List (V × V)} {p : List V} (hwf : WF es)
    (hne : nodesOf es ≠ []) (hp : p.Perm (nodesOf es)) :
    ∀ s ∈ strategies, colorWith es s p ≠ [] := by
  intro s hs hnil
  obtain ⟨v, hv⟩ := List.exists_mem_of_ne_nil (nodesOf es) hne
  have hcov := colorWith_covers hwf hp s hs v hv
  rw [hnil] at hcov
  cases hcov

theorem counts_some {es : List (V × V)} {p : List V} (hwf : WF es)
    (hne : nodesOf es ≠ []) (hp : p.Perm (nodesOf es)) :
    ∀ s ∈ strategies,
      numColors (colorWith es s p) = some (numColorsN (colorWith es s p)) := by
  intro s hs
  exact numColors_eq_some_numColorsN (colorWith_ne_nil hwf hne hp s hs)

/-! ## Selection loop of find_best_strategy -/

theorem bestLoop_spec (es : List (V × V)) (p : List V) :
    ∀ (ss : List String) (seed : String) (n : Nat),
      (∀ s ∈ ss, numColors (colorWith es s p) =
        some (numColorsN (colorWith es s p))) →
      n = numColorsN (colorWith es seed p) →
      ∃ w pre post,
        bestLoop es p ss seed n = some (w, numColorsN (colorWith es w p)) ∧
        seed :: ss = pre ++ w :: post ∧
        (∀ t ∈ pre,
          numColorsN (colorWith es w p) < numColorsN (colorWith es t p)) ∧
        (∀ t ∈ post,
          numColorsN (colorWith es w p) ≤ numColorsN (colorWith es t p)) ∧
        numColorsN (colorWith es w p) ≤ numColorsN (colorWith es seed p) := by
  intro ss
  induction ss with
  | nil =>
    intro seed n hsome hn
    refine ⟨seed, [], [], ?_, rfl, ?_, ?_, le_refl _⟩
    · simp only [bestLoop, hn]
    · intro t ht; cases ht
    · intro t ht; cases ht
  | cons s ss ih =>
    intro seed n hsome hn
    have hs := hsome s (List.mem_cons_self _ _)
    by_cases hlt : numColorsN (colorWith es s p) < n
    · obtain ⟨w, pre, post, h1, h2, h3, h4, h5⟩ := ih s _
        (fun t ht => hsome t (List.mem_cons_of_mem _ ht)) rfl
      refine ⟨w, seed :: pre, post, ?_, ?_, ?_, h4, ?_⟩
      · simp only [bestLoop, hs]
        rw [if_pos hlt]
        exact h1
      · rw [List.cons_append, ← h2]
      · intro t ht
        rcases List.mem_cons.mp ht with rfl | ht2
        · omega
        · exact h3 t ht2
      · omega
    · obtain ⟨w, pre, post, h1, h2, h3, h4, h5⟩ := ih seed n
        (fun t ht => hsome t (List.mem_cons_of_mem _ ht)) hn
      cases pre with
      | nil =>
        have hw : seed = w ∧ ss = post := by simpa using h2
        obtain ⟨rfl, rfl⟩ := hw
        refine ⟨seed, [], s :: ss, ?_, rfl, ?_, ?_, h5⟩
        · simp only [bestLoop, hs]
          rw [if_neg hlt]
          exact h1
        · intro t ht; cases ht
        · intro t ht
          rcases List.mem_cons.mp ht with rfl | ht2
          · omega
          · exact h4 t ht2
      | cons q pre2 =>
        have hq : seed = q ∧ ss = pre2 ++ w :: post := by simpa using h2
        refine ⟨w, seed :: s :: pre2, post, ?_, ?_, ?_, h4, h5⟩
        · simp only [bestLoop, hs]
          rw [if_neg hlt]
          exact h1
        · simp [hq.2]
        · intro t ht
          have hwq := h3 q (List.mem_cons_self _ _)
          rcases List.mem_cons.mp ht with rfl | ht2
          · rw [hq.1]
            exact hwq
          · rcases List.mem_cons.mp ht2 with rfl | ht3
            · have hws : numColorsN (colorWith es w p) <
                  numColorsN (colorWith es seed p) := by
                rw [hq.1]
                exact hwq
              omega
            · exact h3 t (List.mem_cons_of_mem _ ht3)

theorem strategies_eq_cons :
    strategies = "largest_first" :: strategies.drop 1 := rfl

theorem findBestStrategy_spec {es : List (V × V)} {p : List V}
    (hall : ∀ s ∈ strategies, numColors (colorWith es s p) =
      some (numColorsN (colorWith es s p))) :
    ∃ w pre post, findBestStrategy es p = some w ∧
      strategies = pre ++ w :: post ∧
      (∀ t ∈ pre,
        numColorsN (colorWith es w p) < numColorsN (colorWith es t p)) ∧
      (∀ t ∈ post,
        numColorsN (colorWith es w p) ≤ numColorsN (colorWith es t p)) := by
  have h0 := hall "largest_first" (by simp [strategies])
  have hdropmem : ∀ t ∈ strategies.drop 1, t ∈ strategies := by
    intro t ht
    rw [strategies_eq_cons]
    exact List.mem_cons_of_mem _ ht
  obtain ⟨w, pre, post, h1, h2, h3, h4, _⟩ := bestLoop_spec es p
    (strategies.drop 1) "largest_first" _
    (fun t ht => hall t (hdropmem t ht)) rfl
  refine ⟨w, pre, post, ?_, strategies_eq_cons.trans h2, h3, h4⟩
  unfold findBestStrategy
  rw [h0]
  simp only [h1]
  rfl

theorem colorWith_det (es : List (V × V)) (p q : List V) (s : String)
    (h : s ≠ "random_sequential") : colorWith es s p = colorWith es s q := by
  unfold colorWith
  split_ifs <;> rfl

/-! ## Loader: addEdge, readGraph, dedupEdges -/

theorem sameEdge_symm {e f : V × V} (h : SameEdge e f) : SameEdge f e := by
  unfold SameEdge at *
  rcases h with ⟨h1, h2⟩ | ⟨h1, h2⟩
  · exact Or.inl ⟨h1.symm, h2.symm⟩
  · exact Or.inr ⟨h2.symm, h1.symm⟩

theorem adjB_of_same {es : List (V × V)} {a b u v : V}
    (hsame : SameEdge (u, v) (a, b)) (hab : adjB es a b = true) :
    adjB es u v = true := by
  unfold SameEdge at hsame
  rcases hsame with ⟨h1, h2⟩ | ⟨h1, h2⟩ <;> simp only at h1 h2
  · rw [h1, h2]; exact hab
  · rw [h1, h2, adjB_comm]; exact hab

theorem adjB_append_single (es : List (V × V)) (a b u v : V) :
    adjB (es ++ [(a, b)]) u v = true ↔
      (adjB es u v = true ∨ SameEdge (u, v) (a, b)) := by
  simp only [adjB_iff, SameEdge, List.mem_append, List.mem_singleton,
    Prod.mk.injEq]
  constructor
  · rintro ((h | ⟨h1, h2⟩) | (h | ⟨h1, h2⟩))
    · exact Or.inl (Or.inl h)
    · exact Or.inr (Or.inl ⟨h1, h2⟩)
    · exact Or.inl (Or.inr h)
    · exact Or.inr (Or.inr ⟨h2, h1⟩)
  · rintro ((h | h) | (⟨h1, h2⟩ | ⟨h1, h2⟩))
    · exact Or.inl (Or.inl h)
    · exact Or.inr (Or.inl h)
    · exact Or.inl (Or.inr ⟨h1, h2⟩)
    · exact Or.inr (Or.inr ⟨h2, h1⟩)

theorem addEdge_eq_of_adjB {es : List (V × V)} {u v : V}
    (h : adjB es u v = true) : addEdge es u v = es := by
  unfold addEdge
  rw [if_pos h]

theorem adjB_addEdge_iff (es : List (V × V)) (a b u v : V) :
    adjB (addEdge es a b) u v = true ↔
      (adjB es u v = true ∨ SameEdge (u, v) (a, b)) := by
  unfold addEdge
  split
  · next hab =>
    constructor
    · exact Or.inl
    · rintro (h | h)
      · exact h
      · exact adjB_of_same h hab
  · exact adjB_append_single es a b u v

theorem adjB_addEdge_mono {es : List (V × V)} {a b u v : V}
    (h : adjB es u v = true) : adjB (addEdge es a b) u v = true :=
  (adjB_addEdge_iff es a b u v).mpr (Or.inl h)

theorem adjB_addEdge_self (es : List (V × V)) (u v : V) :
    adjB (addEdge es u v) u v = true :=
  (adjB_addEdge_iff es u v u v).mpr (Or.inr (Or.inl ⟨rfl, rfl⟩))

theorem foldl_addEdge_filter (e : V × V) :
    ∀ (rest acc : List (V × V)), adjB acc e.1 e.2 = true →
      rest.foldl (fun es f => addEdge es f.1 f.2) acc =
        (rest.filter (fun f => ¬ SameEdge e f)).foldl
          (fun es f => addEdge es f.1 f.2) acc := by
  intro rest
  induction rest with
  | nil => intro acc _; rfl
  | cons f rest ih =>
    intro acc h
    rw [List.foldl_cons, List.filter_cons]
    by_cases hsf : SameEdge e f
    · rw [decide_eq_false (fun hn => hn hsf)]
      simp only [Bool.false_eq_true, if_false]
      have hsame : SameEdge (f.1, f.2) (e.1, e.2) := by
        have := sameEdge_symm hsf
        exact this
      rw [addEdge_eq_of_adjB (adjB_of_same hsame h)]
      exact ih acc h
    · rw [decide_eq_true hsf]
      simp only [if_true]
      rw [List.foldl_cons]
      exact ih (addEdge acc f.1 f.2) (adjB_addEdge_mono h)

theorem foldl_addEdge_dedup :
    ∀ (ps acc : List (V × V)),
      ps.foldl (fun es f => addEdge es f.1 f.2) acc =
        (dedupEdges ps).foldl (fun es f => addEdge es f.1 f.2) acc := by
  intro ps
  induction ps with
  | nil => intro acc; rfl
  | cons e rest ih =>
    intro acc
    unfold dedupEdges
    rw [List.foldl_cons, List.foldl_cons, ih (addEdge acc e.1 e.2)]
    exact foldl_addEdge_filter e (dedupEdges rest) _
      (adjB_addEdge_self acc e.1 e.2)

theorem readFoldStep_none (row : List String) : readFoldStep none row = none :=
  rfl

theorem foldl_readFoldStep_none (rows : List (List String)) :
    rows.foldl readFoldStep none = none := by
  induction rows with
  | nil => rfl
  | cons r rest ih =>
    rw [List.foldl_cons, readFoldStep_none]
    exact ih

theorem foldl_readFoldStep_fatal :
    ∀ (rows : List (List String)) (es : List (V × V)),
      (∃ r ∈ rows, parseRow r = none) →
      rows.foldl readFoldStep (some es) = none := by
  intro rows
  induction rows with
  | nil =>
    intro es h
    obtain ⟨r, hr, _⟩ := h
    cases hr
  | cons r rest ih =>
    intro es h
    rw [List.foldl_cons]
    cases hp : parseRow r with
    | none =>
      have hstep : readFoldStep (some es) r = none := by
        unfold readFoldStep
        rw [hp]
      rw [hstep]
      exact foldl_readFoldStep_none rest
    | some e =>
      have hstep : readFoldStep (some es) r = some (addEdge es e.1 e.2) := by
        unfold readFoldStep
        rw [hp]
      rw [hstep]
      apply ih
      obtain ⟨r0, hr0, hr0n⟩ := h
      rcases List.mem_cons.mp hr0 with rfl | hr0m
      · rw [hp] at hr0n
        cases hr0n
      · exact ⟨r0, hr0m, hr0n⟩

theorem foldl_readFoldStep_ok :
    ∀ (rows : List (List String)) (es : List (V × V)),
      (∀ r ∈ rows, (parseRow r).isSome = true) →
      ∃ es2, rows.foldl readFoldStep (some es) = some es2 ∧
        ∀ u v : V, adjB es2 u v = true ↔
          (adjB es u v = true ∨ ∃ r ∈ rows, ∃ x y : V,
            parseRow r = some (x, y) ∧ SameEdge (u, v) (x, y)) := by
  intro rows
  induction rows with
  | nil =>
    intro es _
    refine ⟨es, rfl, ?_⟩
    intro u v
    simp
  | cons r rest ih =>
    intro es hall
    have hr := hall r (List.mem_cons_self _ _)
    obtain ⟨e, he⟩ := Option.isSome_iff_exists.mp hr
    have hstep : readFoldStep (some es) r = some (addEdge es e.1 e.2) := by
      unfold readFoldStep
      rw [he]
    rw [List.foldl_cons, hstep]
    obtain ⟨es2, h1, h2⟩ := ih (addEdge es e.1 e.2)
      (fun t ht => hall t (List.mem_cons_of_mem _ ht))
    refine ⟨es2, h1, ?_⟩
    intro u v
    rw [h2 u v, adjB_addEdge_iff]
    constructor
    · rintro ((h | h) | ⟨r0, hr0, x, y, hxy, hs⟩)
      · exact Or.inl h
      · exact Or.inr ⟨r, List.mem_cons_self _ _, e.1, e.2, by rw [he], h⟩
      · exact Or.inr ⟨r0, List.mem_cons_of_mem _ hr0, x, y, hxy, hs⟩
    · rintro (h | ⟨r0, hr0, x, y, hxy, hs⟩)
      · exact Or.inl (Or.inl h)
      · rcases List.mem_cons.mp hr0 with rfl | hr0m
        · rw [he] at hxy
          have hex : e = (x, y) := by
            cases hxy
            rfl
          rw [hex]
          exact Or.inl (Or.inr hs)
        · exact Or.inr ⟨r0, hr0m, x, y, hxy, hs⟩

theorem foldl_readFoldStep_parsed :
    ∀ (rows : List (List String)) (ps : List (V × V)) (es : List (V × V)),
      rows.map parseRow = ps.map some →
      rows.foldl readFoldStep (some es) =
        some (ps.foldl (fun es f => addEdge es f.1 f.2) es) := by
  intro rows
  induction rows with
  | nil =>
    intro ps es h
    cases ps with
    | nil => rfl
    | cons e ps2 => cases h
  | cons r rest ih =>
    intro ps es h
    cases ps with
    | nil => cases h
    | cons e ps2 =>
      rw [List.map_cons, List.map_cons] at h
      have hr : parseRow r = some e := (List.cons.injEq _ _ _ _ ▸ h).1
      have hrest : rest.map parseRow = ps2.map some :=
        (List.cons.injEq _ _ _ _ ▸ h).2
      have hstep : readFoldStep (some es) r = some (addEdge es e.1 e.2) := by
        unfold readFoldStep
        rw [hr]
      rw [List.foldl_cons, hstep, List.foldl_cons]
      exact ih ps2 _ hrest

theorem numColorsN_eq {c : List (V × Nat)} (h : c ≠ []) (hk : KeysNodup c) :
    numColorsN c = (c.map (fun q => q.2)).foldr max 0 + 1 := by
  have hvs : ((dedupKeys c).map (fun p => p.2)).isEmpty = false := by
    rw [List.isEmpty_eq_false_iff_exists_mem]
    obtain ⟨p, hp⟩ := List.exists_mem_of_ne_nil (dedupKeys c) (dedupKeys_ne_nil h)
    exact ⟨p.2, List.mem_map.mpr ⟨p, hp, rfl⟩⟩
  simp only [numColorsN, numColors, hvs, Bool.false_eq_true, if_false,
    Option.getD_some]
  rw [dedupKeys_eq_self hk]

/-! ## The claims -/

/-- Claim C1 (code bug): for a graph loaded from a file containing only the
header line — the zero-vertex graph — `find_best_strategy` is NOT
special-cased: on the very first strategy the color count `max(values)+1`
is taken over an empty dict, and the `ValueError` propagates (modelled as
`none`), instead of returning an empty coloring with zero colors. -/
theorem findBestStrategy_empty_graph_raises :
    readGraph [["vertex1", "vertex2"]] = some [] ∧
      findBestStrategy [] [] = none := ⟨rfl, rfl⟩

/-- Claim C2 (counterexample): with `random_sequential`'s two independent
random draws made explicit, the pipeline of `main` can write a coloring
strictly worse than every count observed during selection: on `cexG` the
selection run draws `cexPSel` (2 colors, random wins), the recoloring run
draws `cexPFin` (3 colors). -/
theorem pipeline_not_minimal_counterexample :
    WF cexG ∧ cexPSel.Perm (nodesOf cexG) ∧ cexPFin.Perm (nodesOf cexG) ∧
    findBestStrategy cexG cexPSel = some "random_sequential" ∧
    pipelineColoring cexG cexPSel cexPFin =
      some (colorWith cexG "random_sequential" cexPFin) ∧
    numColorsN (colorWith cexG "random_sequential" cexPFin) = 3 ∧
    numColorsN (colorWith cexG "random_sequential" cexPSel) = 2 ∧
    ¬ (∀ t ∈ strategies,
        numColorsN ((pipelineColoring cexG cexPSel cexPFin).getD []) ≤
          numColorsN (colorWith cexG t cexPSel)) := by
  refine ⟨by decide, by decide, by decide, by decide, by decide, by decide,
    by decide, ?_⟩
  intro hall
  have := hall "random_sequential" (by decide)
  revert this
  decide

/-- Claim C2 (amended): whenever the winning strategy is deterministic
(not `random_sequential`), the coloring the pipeline recomputes and writes
uses at most as many colors as every strategy's selection-run result. -/
theorem pipeline_minimal_of_det (es : List (V × V)) (pSel pFin : List V)
    (hwf : WF es) (hne : nodesOf es ≠ []) (hp : pSel.Perm (nodesOf es))
    (s : String) (hbest : findBestStrategy es pSel = some s)
    (hdet : s ≠ "random_sequential") :
    pipelineColoring es pSel pFin = some (colorWith es s pFin) ∧
    ∀ t ∈ strategies,
      numColorsN (colorWith es s pFin) ≤ numColorsN (colorWith es t pSel) := by
  constructor
  · unfold pipelineColoring
    rw [hbest]
    rfl
  · obtain ⟨w, pre, post, h1, h2, h3, h4⟩ :=
      findBestStrategy_spec (counts_some hwf hne hp)
    have hsw : s = w := by
      rw [hbest] at h1
      exact Option.some_inj.mp h1
    subst hsw
    intro t ht
    rw [colorWith_det es pFin pSel s hdet]
    rw [h2] at ht
    rcases List.mem_append.mp ht with htp | htc
    · exact le_of_lt (h3 t htp)
    · rcases List.mem_cons.mp htc with rfl | htpost
      · exact le_refl _
      · exact h4 t htpost

/-- Witness for the amended Claim C2: on the triangle the winner is
`largest_first` (deterministic), and the recomputed coloring's count is
minimal among all selection-run counts. -/
theorem pipeline_minimal_of_det_witness :
    WF tri ∧ nodesOf tri ≠ [] ∧ ([1, 2, 3] : List V).Perm (nodesOf tri) ∧
    findBestStrategy tri [1, 2, 3] = some "largest_first" ∧
    "largest_first" ≠ "random_sequential" ∧
    (pipelineColoring tri [1, 2, 3] [3, 2, 1] =
      some (colorWith tri "largest_first" [3, 2, 1]) ∧
    ∀ t ∈ strategies,
      numColorsN (colorWith tri "largest_first" [3, 2, 1]) ≤
        numColorsN (colorWith tri t [1, 2, 3])) :=
  ⟨by decide, by decide, by decide, by decide, by decide,
    pipeline_minimal_of_det tri [1, 2, 3] [3, 2, 1] (by decide) (by decide)
      (by decide) "largest_first" (by decide) (by decide)⟩

/-- Claim C3: `find_best_strategy` evaluates the seven strategies in the
fixed enumeration order, overwrites the running best only on a strictly
smaller color count, and returns the earliest strategy achieving the
minimal count: the winner `w` splits the strategy list into earlier
strategies with strictly larger counts and later ones with
greater-or-equal counts. -/
theorem findBestStrategy_first_min (es : List (V × V)) (p : List V)
    (hwf : WF es) (hne : nodesOf es ≠ []) (hp : p.Perm (nodesOf es)) :
    strategies = ["largest_first", "random_sequential", "smallest_last",
      "independent_set", "connected_sequential_bfs",
      "connected_sequential_dfs", "saturation_largest_first"] ∧
    ∃ w pre post, findBestStrategy es p = some w ∧
      strategies = pre ++ w :: post ∧
      (∀ t ∈ pre,
        numColorsN (colorWith es w p) < numColorsN (colorWith es t p)) ∧
      (∀ t ∈ post,
        numColorsN (colorWith es w p) ≤ numColorsN (colorWith es t p)) :=
  ⟨rfl, findBestStrategy_spec (counts_some hwf hne hp)⟩

/-- Witness for Claim C3 on the triangle. -/
theorem findBestStrategy_first_min_witness :
    WF tri ∧ nodesOf tri ≠ [] ∧ ([1, 2, 3] : List V).Perm (nodesOf tri) ∧
    (strategies = ["largest_first", "random_sequential", "smallest_last",
      "independent_set", "connected_sequential_bfs",
      "connected_sequential_dfs", "saturation_largest_first"] ∧
    ∃ w pre post, findBestStrategy tri [1, 2, 3] = some w ∧
      strategies = pre ++ w :: post ∧
      (∀ t ∈ pre, numColorsN (colorWith tri w [1, 2, 3]) <
        numColorsN (colorWith tri t [1, 2, 3])) ∧
      (∀ t ∈ post, numColorsN (colorWith tri w [1, 2, 3]) ≤
        numColorsN (colorWith tri t [1, 2, 3]))) :=
  ⟨by decide, by decide, by decide,
    findBestStrategy_first_min tri [1, 2, 3] (by decide) (by decide)
      (by decide)⟩

/-- Claim C4: for every self-loop-free graph (zero-edge and disconnected
included) and every enumerated strategy, the produced coloring assigns
every vertex a color and no edge has equal endpoint colors. -/
theorem greedy_color_valid (es : List (V × V)) (p : List V) (hwf : WF es)
    (hp : p.Perm (nodesOf es)) :
    ∀ s ∈ strategies,
      (∀ v ∈ nodesOf es, (lookupC (colorWith es s p) v).isSome = true) ∧
      ProperOn es (colorWith es s p) :=
  fun s hs => ⟨colorWith_covers hwf hp s hs, colorWith_proper hwf s hs⟩

/-- Witness for Claim C4 on two disjoint edges (a disconnected graph). -/
theorem greedy_color_valid_witness :
    WF twoDisj ∧ ([1, 2, 3, 4] : List V).Perm (nodesOf twoDisj) ∧
    ∀ s ∈ strategies,
      (∀ v ∈ nodesOf twoDisj,
        (lookupC (colorWith twoDisj s [1, 2, 3, 4]) v).isSome = true) ∧
      ProperOn twoDisj (colorWith twoDisj s [1, 2, 3, 4]) :=
  ⟨by decide, by decide,
    greedy_color_valid twoDisj [1, 2, 3, 4] (by decide) (by decide)⟩

/-- Claim C5: for every non-empty self-loop-free graph and every strategy,
the dict's color values are exactly the contiguous range `[0, k)` for
`k = max(values) + 1`, and that count equals the number of distinct
colors. -/
theorem colors_contiguous (es : List (V × V)) (p : List V) (hwf : WF es)
    (hne : nodesOf es ≠ []) (hp : p.Perm (nodesOf es)) :
    ∀ s ∈ strategies,
      (∀ m : Nat, m ∈ (dedupKeys (colorWith es s p)).map (fun q => q.2) ↔
        m < numColorsN (colorWith es s p)) ∧
      numColorsN (colorWith es s p) =
        ((dedupKeys (colorWith es s p)).map (fun q => q.2)).dedup.length := by
  intro s hs
  have hk := colorWith_keysNodup hwf hp s hs
  have hcne := colorWith_ne_nil hwf hne hp s hs
  have hdedup : dedupKeys (colorWith es s p) = colorWith es s p :=
    dedupKeys_eq_self hk
  have hvne : (colorWith es s p).map (fun q => q.2) ≠ [] := by
    intro hnil
    exact hcne (List.map_eq_nil_iff.mp hnil)
  have hdc : ∀ x ∈ (colorWith es s p).map (fun q => q.2), ∀ m < x,
      m ∈ (colorWith es s p).map (fun q => q.2) := by
    intro x hx m hm
    obtain ⟨q, hq, hqx⟩ := List.mem_map.mp hx
    obtain ⟨q2, hq2, hq2m⟩ := colorWith_dc hwf s hs q hq m (by omega)
    exact List.mem_map.mpr ⟨q2, hq2, hq2m⟩
  obtain ⟨hiff, hlen⟩ := contiguous_of_dc hvne hdc
  have hnum := numColorsN_eq hcne hk
  rw [hdedup]
  constructor
  · intro m
    rw [hnum]
    exact hiff m
  · rw [hnum, hlen]

/-- Witness for Claim C5 on the triangle. -/
theorem colors_contiguous_witness :
    WF tri ∧ nodesOf tri ≠ [] ∧ ([1, 2, 3] : List V).Perm (nodesOf tri) ∧
    ∀ s ∈ strategies,
      (∀ m : Nat, m ∈ (dedupKeys (colorWith tri s [1, 2, 3])).map
          (fun q => q.2) ↔ m < numColorsN (colorWith tri s [1, 2, 3])) ∧
      numColorsN (colorWith tri s [1, 2, 3]) =
        ((dedupKeys (colorWith tri s [1, 2, 3])).map
          (fun q => q.2)).dedup.length :=
  ⟨by decide, by decide, by decide,
    colors_contiguous tri [1, 2, 3] (by decide) (by decide) (by decide)⟩

/-- Claim C6: `write_coloring_to_csv` emits the header row
`vertex color` followed by exactly one row per vertex of the coloring, in
strictly ascending vertex order, each row holding the vertex and its
color. -/
theorem writeRows_spec (c : List (V × Nat)) (h : KeysNodup c) :
    ∃ ks : List V, ks.Perm (keysC c) ∧ ks.Pairwise (fun a b => a < b) ∧
      writeRows c = ["vertex", "color"] ::
        ks.map (fun v => [toString v, toString ((lookupC c v).getD 0)]) ∧
      (∀ v ∈ ks, (lookupC c v).isSome = true) ∧
      (writeRows c).length = c.length + 1 := by
  refine ⟨(keysC c).insertionSort (fun a b => a ≤ b),
    List.perm_insertionSort _ _, ?_, rfl, ?_, ?_⟩
  · have hsorted := List.sorted_insertionSort (fun a b : V => a ≤ b) (keysC c)
    have hnodup : ((keysC c).insertionSort (fun a b => a ≤ b)).Nodup :=
      (List.perm_insertionSort (fun a b : V => a ≤ b) (keysC c)).symm.nodup h
    exact (List.Pairwise.and hsorted hnodup).imp
      (fun hab => lt_of_le_of_ne hab.1 hab.2)
  · intro v hv
    rw [lookupC_isSome_iff]
    exact (List.perm_insertionSort (fun a b : V => a ≤ b) (keysC c)).mem_iff.mp
      hv
  · show (["vertex", "color"] ::
      ((keysC c).insertionSort (fun a b => a ≤ b)).map
        (fun v => [toString v, toString ((lookupC c v).getD 0)])).length =
      c.length + 1
    rw [List.length_cons, List.length_map,
      (List.perm_insertionSort (fun a b : V => a ≤ b) (keysC c)).length_eq]
    unfold keysC
    rw [List.length_map]

/-- Witness for Claim C6 on a two-entry coloring given in reverse key
order. -/
theorem writeRows_spec_witness :
    KeysNodup [((2 : V), 0), (1, 1)] ∧
    ∃ ks : List V, ks.Perm (keysC [((2 : V), 0), (1, 1)]) ∧
      ks.Pairwise (fun a b => a < b) ∧
      writeRows [((2 : V), 0), (1, 1)] = ["vertex", "color"] ::
        ks.map (fun v =>
          [toString v, toString ((lookupC [((2 : V), 0), (1, 1)] v).getD 0)]) ∧
      (∀ v ∈ ks, (lookupC [((2 : V), 0), (1, 1)] v).isSome = true) ∧
      (writeRows [((2 : V), 0), (1, 1)]).length =
        ([((2 : V), 0), (1, 1)] : List (V × Nat)).length + 1 :=
  ⟨by decide, writeRows_spec [((2 : V), 0), (1, 1)] (by decide)⟩

/-- Claim C7: the loader skips exactly the first line (the result does not
depend on its content); any later row that is not exactly two integers
makes the whole load fail with no partial result; when every row parses,
the loaded graph's edges are exactly the undirected pairs of the rows. -/
theorem readGraph_spec (h1 h2 : List String) (rows : List (List String)) :
    readGraph (h1 :: rows) = readGraph (h2 :: rows) ∧
    ((∃ r ∈ rows, parseRow r = none) → readGraph (h1 :: rows) = none) ∧
    ((∀ r ∈ rows, (parseRow r).isSome = true) →
      ∃ es, readGraph (h1 :: rows) = some es ∧
        ∀ u v : V, adjB es u v = true ↔ ∃ r ∈ rows, ∃ x y : V,
          parseRow r = some (x, y) ∧ SameEdge (u, v) (x, y)) := by
  refine ⟨rfl, ?_, ?_⟩
  · intro hex
    show rows.foldl readFoldStep (some []) = none
    exact foldl_readFoldStep_fatal rows [] hex
  · intro hall
    obtain ⟨es, he1, he2⟩ := foldl_readFoldStep_ok rows [] hall
    refine ⟨es, he1, ?_⟩
    intro u v
    rw [he2 u v]
    have hempty : adjB ([] : List (V × V)) u v = false := rfl
    rw [hempty]
    simp

/-- Witness for Claim C7: a malformed row aborts the load; a well-formed
two-row file loads with exactly the stated undirected edge. -/
theorem readGraph_spec_witness :
    readGraph [["head"], ["1", "2"], []] = none ∧
    ∃ es, readGraph [["head"], ["1", "2"]] = some es ∧
      ∀ u v : V, adjB es u v = true ↔ ∃ r ∈ [[("1" : String), "2"]],
        ∃ x y : V, parseRow r = some (x, y) ∧ SameEdge (u, v) (x, y) :=
  ⟨(readGraph_spec ["head"] ["x"] [["1", "2"], []]).2.1
      ⟨[], by decide, rfl⟩,
    (readGraph_spec ["head"] ["x"] [["1", "2"]]).2.2 (by decide)⟩

/-- Claim C8: edge insertion is idempotent under undirected set semantics:
building from a pair list equals building from the list with duplicate
undirected pairs (in either orientation) removed; and on fully parsed
input `read_graph_from_csv` is exactly that build. -/
theorem addEdge_dedup_idempotent :
    (∀ ps : List (V × V), buildGraph ps = buildGraph (dedupEdges ps)) ∧
    (∀ (h : List String) (rows : List (List String)) (ps : List (V × V)),
      rows.map parseRow = ps.map some →
      readGraph (h :: rows) = some (buildGraph ps)) := by
  constructor
  · intro ps
    unfold buildGraph
    exact foldl_addEdge_dedup ps []
  · intro h rows ps hparse
    show rows.foldl readFoldStep (some []) = _
    exact foldl_readFoldStep_parsed rows ps [] hparse

/-- Witness for Claim C8: a file repeating the edge 1–2 in both
orientations loads to the same graph as the deduplicated pair list. -/
theorem addEdge_dedup_idempotent_witness :
    ([["1", "2"], ["2", "1"], ["1", "2"]] : List (List String)).map parseRow =
      ([((1 : V), (2 : V)), (2, 1), (1, 2)] : List (V × V)).map some ∧
    readGraph [["head"], ["1", "2"], ["2", "1"], ["1", "2"]] =
      some (buildGraph [((1 : V), (2 : V)), (2, 1), (1, 2)]) ∧
    buildGraph [((1 : V), (2 : V)), (2, 1), (1, 2)] =
      buildGraph (dedupEdges [((1 : V), (2 : V)), (2, 1), (1, 2)]) :=
  ⟨by decide,
    addEdge_dedup_idempotent.2 ["head"]
      [["1", "2"], ["2", "1"], ["1", "2"]]
      [((1 : V), (2 : V)), (2, 1), (1, 2)] (by decide),
    addEdge_dedup_idempotent.1 [((1 : V), (2 : V)), (2, 1), (1, 2)]⟩

/-- Claim C9: every deterministic strategy (all but `random_sequential`)
ignores the random draw entirely, so re-running it on the unchanged graph
yields the identical vertex-to-color mapping. -/
theorem colorWith_deterministic (es : List (V × V)) (p q : List V) :
    ∀ s ∈ strategies, s ≠ "random_sequential" →
      colorWith es s p = colorWith es s q :=
  fun s _ h => colorWith_det es p q s h

/-- Witness for Claim C9: `smallest_last` on the triangle under two
different draws. -/
theorem colorWith_deterministic_witness :
    "smallest_last" ∈ strategies ∧ "smallest_last" ≠ "random_sequential" ∧
    colorWith tri "smallest_last" [1, 2, 3] =
      colorWith tri "smallest_last" [3, 2, 1] :=
  ⟨by decide, by decide,
    colorWith_deterministic tri [1, 2, 3] [3, 2, 1] "smallest_last"
      (by decide) (by decide)⟩

/-- Claim C10: on a completely empty file the loader fails at the header
skip (`next` on an exhausted reader, modelled as `none`), so at least one
line must be present. -/
theorem readGraph_empty_file_raises :
    readGraph ([] : List (List String)) = none := rfl

end GraphColoring
